import Mathlib

/-!
Verification of the streaming write orchestrator specified for
`fileapi::FileWriterDelegate` (webkit/fileapi/file_writer_delegate.h).
The repository snapshot contains only the class declaration; the method
bodies live in the matching `.cc` file, which is absent.  The pure
components (Quota Tracker §4.2, Progress Throttle §4.3, Completion
Reporter §4.4) and the orchestrator loop (§4.1) are therefore modelled
from the specification text, while the integer widths of the members and
the `file()` accessor are embedded from the header itself.
-/

namespace FileWriter

/-- Error kinds of the failure model (spec §7). -/
inductive ErrorKind where
  | invalidArgument
  | destinationUnavailable
  | sourceError
  | writeError
  | quotaExceeded
  | cancelled
deriving DecidableEq, Repr

/-- Modelled from the spec: the Quota Tracker (§4.2).  The implementation
(`FileWriterDelegate::Write` / `allowed_bytes_to_write_` bookkeeping in the
`.cc` file) is absent from the sources; the header only declares the members.
Input: quota ceiling, quota baseline, cumulative bytes already written this
transfer, candidate chunk length.  Output: `(bytes to write, exceeded)`. -/
def quotaDecision (ceiling baseline cumulative chunkLen : Int) : Int × Bool :=
  let remaining := ceiling - (baseline + cumulative)
  if remaining ≤ 0 then (0, true)
  else (min chunkLen remaining, decide (remaining < chunkLen))

/-- State remembered by the Progress Throttle (spec §4.3). -/
structure ThrottleState where
  lastReportedTime : Int
  lastReportedBytes : Int
deriving DecidableEq, Repr

/-- Modelled from the spec: the Progress Throttle decision (§4.3).  The
implementation (`FileWriterDelegate::OnProgress` body) is absent from the
sources.  True when enough time has elapsed, enough bytes have accumulated,
or the transfer has just reached a terminal state (terminal events are never
throttled). -/
def shouldReport (minInterval minByteDelta : Int) (st : ThrottleState)
    (now cumulativeBytes : Int) (terminal : Bool) : Bool :=
  decide (minInterval ≤ now - st.lastReportedTime)
    || decide (minByteDelta ≤ cumulativeBytes - st.lastReportedBytes)
    || terminal

/-- One source-stream event (spec §6, Source contract):
`requestNextChunk() → Chunk | EndOfStream | Error(code)`. -/
inductive SourceEvent where
  | chunk (bytes : List Nat)
  | endOfStream
  | sourceErr (code : Int)
deriving DecidableEq, Repr

/-- One `writeAt(offset, bytes)` call issued to the sink (spec §6). -/
structure WriteCall where
  offset : Int
  bytes : List Nat
deriving DecidableEq, Repr

/-- Terminal callback (spec §6): `onSuccess(totalBytesWritten)` or
`onError(kind, detail)`. -/
inductive Terminal where
  | onSuccess (totalBytesWritten : Int)
  | onError (kind : ErrorKind) (detail : Int)
deriving DecidableEq, Repr

/-- Outbound notification observed by the owning operation: throttled
progress events and the terminal callback. -/
inductive Event where
  | progress (bytesWrittenSoFar : Int)
  | terminal (t : Terminal)
deriving DecidableEq, Repr

def Event.isTerminal : Event → Bool
  | .terminal _ => true
  | .progress _ => false

/-- Everything observable about one finished Transfer: the terminal
callback, the `totalBytesWritten` counter (exposed on the error path too,
spec §7), the ordered log of `writeAt` calls, and the notification trace. -/
structure TransferResult where
  terminal : Terminal
  totalBytesWritten : Int
  writes : List WriteCall
  trace : List Event
deriving DecidableEq, Repr

/-- Configuration and environment of one Transfer: quota parameters
(spec §6), the source stream, the sink's response to each successive
`writeAt` call (`none` = success), the iteration from which an external
cancel request is visible, throttle policy knobs and the clock. -/
structure TransferConfig where
  quotaCeiling : Int
  startOffset : Int
  probe : Except Int Int
  source : List SourceEvent
  sink : Nat → Option Int
  cancelAt : Option Nat
  minInterval : Int
  minByteDelta : Int
  time : Nat → Int

/-- The external cancel signal is observed at the top of each loop
iteration (spec §4.1): visible from iteration `k` on. -/
def cancelObserved (cancelAt : Option Nat) (iter : Nat) : Bool :=
  match cancelAt with
  | none => false
  | some k => decide (k ≤ iter)

/-- A `TransferResult` that terminates immediately with callback `t`. -/
def finishWith (t : Terminal) (cumulative : Int) : TransferResult :=
  ⟨t, cumulative, [], [Event.terminal t]⟩

/-- Modelled from the spec: the read/write loop of the Write Orchestrator
(§4.1); the implementation (`FileWriterDelegate::Read` / `OnDataReceived` /
`Write` / `OnDataWritten` bodies) is absent from the sources.  Each
iteration observes the cancel signal, pulls the next source event, passes a
chunk through the Quota Tracker, issues a single write of the possibly
truncated range at `startOffset + cumulative`, updates counters, consults
the Progress Throttle, and loops — or terminates with the matching error
kind. -/
def runLoop (cfg : TransferConfig) (baseline : Int) :
    List SourceEvent → Nat → Nat → Int → ThrottleState → TransferResult
  | src, iter, nWrites, cumulative, th =>
    if cancelObserved cfg.cancelAt iter then
      finishWith (.onError .cancelled 0) cumulative
    else
      match src with
      | [] => finishWith (.onSuccess cumulative) cumulative
      | .endOfStream :: _ => finishWith (.onSuccess cumulative) cumulative
      | .sourceErr code :: _ =>
          finishWith (.onError .sourceError code) cumulative
      | .chunk bytes :: rest =>
          let d := quotaDecision cfg.quotaCeiling baseline cumulative
                     (bytes.length : Int)
          if d.1 = 0 then
            if d.2 then finishWith (.onError .quotaExceeded 0) cumulative
            else runLoop cfg baseline rest (iter + 1) nWrites cumulative th
          else
            match cfg.sink nWrites with
            | some code => finishWith (.onError .writeError code) cumulative
            | none =>
                let w : WriteCall :=
                  ⟨cfg.startOffset + cumulative, bytes.take d.1.toNat⟩
                let c' := cumulative + d.1
                let now := cfg.time iter
                let rep := shouldReport cfg.minInterval cfg.minByteDelta th
                             now c' false
                let th' : ThrottleState := if rep then ⟨now, c'⟩ else th
                let prog : List Event := if rep then [Event.progress c'] else []
                if d.2 then
                  ⟨.onError .quotaExceeded 0, c', [w],
                   prog ++ [Event.terminal (.onError .quotaExceeded 0)]⟩
                else
                  let r := runLoop cfg baseline rest (iter + 1) (nWrites + 1)
                             c' th'
                  ⟨r.terminal, r.totalBytesWritten, w :: r.writes,
                   prog ++ r.trace⟩

/-- Modelled from the spec: a whole Transfer (§4.1): `Start` validates the
offset, `ProbingDestination` establishes the quota baseline, then the
read/write loop runs. -/
def runTransfer (cfg : TransferConfig) : TransferResult :=
  if cfg.startOffset < 0 then
    finishWith (.onError .invalidArgument 0) 0
  else
    match cfg.probe with
    | .error code => finishWith (.onError .destinationUnavailable code) 0
    | .ok baseline =>
        runLoop cfg baseline cfg.source 0 0 0 ⟨cfg.time 0, 0⟩

/-- A source stream consisting of the given chunks. -/
def chunkEvents (chunks : List (List Nat)) : List SourceEvent :=
  chunks.map SourceEvent.chunk

/-- The bytes a source stream produces before its first non-chunk event. -/
def sourceBytes : List SourceEvent → List Nat
  | SourceEvent.chunk b :: rest => b ++ sourceBytes rest
  | _ => []

/-- Total length, in bytes, of a list of write calls. -/
def sumLens (ws : List WriteCall) : Int :=
  ws.foldr (fun w a => (w.bytes.length : Int) + a) 0

/-- Concatenation of the byte ranges of successive write calls. -/
def concatWrites (ws : List WriteCall) : List Nat :=
  (ws.map WriteCall.bytes).flatten

/-- The write calls are contiguous from `off`: each call lands at the
offset just past the previous call's range — no gaps, no overlaps, no
reordering. -/
def contiguousFrom (off : Int) : List WriteCall → Prop
  | [] => True
  | w :: ws => w.offset = off ∧ contiguousFrom (off + (w.bytes.length : Int)) ws

/-- The write calls a transfer issues when every chunk fits in the quota:
each chunk is written in full, contiguously from `off + c`. -/
def fullWrites (off : Int) : List (List Nat) → Int → List WriteCall
  | [], _ => []
  | b :: rest, c =>
      ⟨off + c, b⟩ :: fullWrites off rest (c + (b.length : Int))

/-- The write calls a transfer issues when only `R` more bytes of quota
remain before the chunks run out: full chunks while they fit, then the
allowed prefix of the chunk that straddles the ceiling. -/
def truncWrites (off : Int) : List (List Nat) → Int → Int → List WriteCall
  | [], _, _ => []
  | b :: rest, c, R =>
      if R ≤ 0 then []
      else if R < (b.length : Int) then [⟨off + c, b.take R.toNat⟩]
      else ⟨off + c, b⟩ ::
        truncWrites off rest (c + (b.length : Int)) (R - (b.length : Int))

/-- Modelled from the spec: the Completion Reporter (§4.4); the
implementation (`FileWriterDelegate::OnError` body) is absent from the
sources.  Delivery of a terminal callback is gated behind a one-shot flag:
the state is `(fired, delivered so far)`. -/
def reportTerminal (st : Bool × List Terminal) (t : Terminal) :
    Bool × List Terminal :=
  if st.1 then st else (true, st.2 ++ [t])

/-- The terminal callbacks actually delivered when the given attempts (the
racing internal failure/completion paths) all funnel through the one-shot
Completion Reporter. -/
def deliveredTerminals (attempts : List Terminal) : List Terminal :=
  (attempts.foldl reportTerminal (false, [])).2

/-- Range of a C++ `int` (32-bit signed) value. -/
abbrev fitsInt32 (n : Int) : Prop := -(2 ^ 31) ≤ n ∧ n ≤ 2 ^ 31 - 1

/-- Range of a C++ `int64` (64-bit signed) value. -/
abbrev fitsInt64 (n : Int) : Prop := -(2 ^ 63) ≤ n ∧ n ≤ 2 ^ 63 - 1

/-- The numeric members of `FileWriterDelegate` with the value ranges their
declared C++ types admit (header: `bytes_written_backlog_`, `bytes_written_`
and `bytes_read_` are `int`; `offset_`, `total_bytes_written_`,
`allowed_bytes_growth_` and `allowed_bytes_to_write_` are `int64`).  The
`bytes_read` arguments of `OnReadCompleted` and `OnDataReceived` are also
`int`, so any value stored into `bytes_read_` respects the same range. -/
structure FileWriterDelegateFields where
  offset_ : Int
  bytes_written_backlog_ : Int
  bytes_written_ : Int
  bytes_read_ : Int
  total_bytes_written_ : Int
  allowed_bytes_growth_ : Int
  allowed_bytes_to_write_ : Int
  h_offset : fitsInt64 offset_
  h_backlog : fitsInt32 bytes_written_backlog_
  h_written : fitsInt32 bytes_written_
  h_read : fitsInt32 bytes_read_
  h_total : fitsInt64 total_bytes_written_
  h_growth : fitsInt64 allowed_bytes_growth_
  h_allowed : fitsInt64 allowed_bytes_to_write_

/-- Dynamic state of one `FileWriterDelegate`, as far as the transfer's
counters and the stored platform file handle are concerned. -/
structure DelegateModel where
  file_ : Int
  offset_ : Int
  bytes_read_ : Int
  bytes_written_ : Int
  total_bytes_written_ : Int
  last_progress_bytes_ : Int
  failed_ : Bool
deriving DecidableEq, Repr

/-- Modelled from the spec: `FileWriterDelegate::Start(file, request,
context)` (body absent from the sources, header only) stores the platform
file handle it is handed and resets the transfer counters. -/
def startDelegate (st : DelegateModel) (f : Int) : DelegateModel :=
  { st with file_ := f, bytes_read_ := 0, bytes_written_ := 0,
            total_bytes_written_ := 0 }

/-- The `file()` accessor of the header: returns the stored `file_`. -/
def file (st : DelegateModel) : Int := st.file_

/-- The operations a running transfer performs after `Start` (header
declarations: `OnDataReceived`, `OnDataWritten`, `OnProgress`, `OnError`). -/
inductive DelegateOp where
  | onDataReceived (bytesRead : Int)
  | onDataWritten (writeResponse : Int)
  | onProgress (bytesRead : Int) (done : Bool)
  | onError (error : Int)
deriving DecidableEq, Repr

/-- Modelled from the spec: the counter updates the transfer's operations
perform (§4.1); the method bodies are absent from the sources.  Reads store
the chunk size, completed writes advance the cumulative counters, progress
updates the reporting bookkeeping, and errors mark the transfer failed —
none of them touches the stored file handle. -/
def applyOp (st : DelegateModel) : DelegateOp → DelegateModel
  | .onDataReceived n => { st with bytes_read_ := n, bytes_written_ := 0 }
  | .onDataWritten n =>
      { st with bytes_written_ := st.bytes_written_ + n,
                total_bytes_written_ := st.total_bytes_written_ + n }
  | .onProgress n _ =>
      { st with last_progress_bytes_ := st.last_progress_bytes_ + n }
  | .onError _ => { st with failed_ := true }

/-- C2: the quota decision is the pure function of the spec: with
`remaining = ceiling - (baseline + cumulative)`, the result is `(0, true)`
when `remaining ≤ 0` and `(min len remaining, remaining < len)` otherwise;
for positive chunk lengths the exceeded flag is set exactly when
`remaining < len`. -/
theorem quotaDecision_correct (ceiling baseline cumulative len : Int)
    (hlen : 0 < len) :
    quotaDecision ceiling baseline cumulative len =
      (if ceiling - (baseline + cumulative) ≤ 0 then ((0 : Int), true)
       else (min len (ceiling - (baseline + cumulative)),
             decide (ceiling - (baseline + cumulative) < len))) ∧
    ((quotaDecision ceiling baseline cumulative len).2 = true ↔
      ceiling - (baseline + cumulative) < len) := by
  refine ⟨rfl, ?_⟩
  unfold quotaDecision
  by_cases h : ceiling - (baseline + cumulative) ≤ 0
  · simp only [h, if_true]
    simpa using by omega
  · simp [h]

theorem quotaDecision_correct_witness :
    (0 : Int) < 400 ∧
    ((quotaDecision 1000 0 800 400).2 = true ↔
      (1000 : Int) - (0 + 800) < 400) :=
  ⟨by decide, (quotaDecision_correct 1000 0 800 400 (by decide)).2⟩

/-- C6: the throttle reports exactly when the time interval has elapsed, the
byte delta has been reached, or the transfer has just reached a terminal
state. -/
theorem shouldReport_correct (minInterval minByteDelta : Int)
    (st : ThrottleState) (now cumulativeBytes : Int) (terminal : Bool) :
    shouldReport minInterval minByteDelta st now cumulativeBytes terminal
      = true ↔
    (minInterval ≤ now - st.lastReportedTime ∨
     minByteDelta ≤ cumulativeBytes - st.lastReportedBytes ∨
     terminal = true) := by
  unfold shouldReport
  simp [or_assoc]

theorem quotaDecision_exhausted (ceiling baseline c len : Int)
    (h : ceiling - (baseline + c) ≤ 0) :
    quotaDecision ceiling baseline c len = (0, true) := by
  unfold quotaDecision
  rw [if_pos h]

theorem quotaDecision_full (ceiling baseline c len : Int)
    (h1 : 0 < len) (h2 : len ≤ ceiling - (baseline + c)) :
    quotaDecision ceiling baseline c len = (len, false) := by
  unfold quotaDecision
  rw [if_neg (by omega)]
  simp only [Prod.mk.injEq]
  exact ⟨min_eq_left h2, decide_eq_false (by omega)⟩

theorem quotaDecision_trunc (ceiling baseline c len : Int)
    (h1 : 0 < ceiling - (baseline + c))
    (h2 : ceiling - (baseline + c) < len) :
    quotaDecision ceiling baseline c len
      = (ceiling - (baseline + c), true) := by
  unfold quotaDecision
  rw [if_neg (by omega)]
  simp only [Prod.mk.injEq]
  exact ⟨min_eq_right (le_of_lt h2), decide_eq_true h2⟩

theorem quotaDecision_fst_nonneg (ceiling baseline c len : Int)
    (hlen : 0 ≤ len) :
    0 ≤ (quotaDecision ceiling baseline c len).1 ∧
    (quotaDecision ceiling baseline c len).1 ≤ len ∧
    (quotaDecision ceiling baseline c len).1 ≤ ceiling - (baseline + c) ∨
    (quotaDecision ceiling baseline c len).1 = 0 := by
  unfold quotaDecision
  by_cases h : ceiling - (baseline + c) ≤ 0
  · rw [if_pos h]; right; rfl
  · rw [if_neg h]; left
    refine ⟨le_min hlen (by omega), min_le_left _ _, min_le_right _ _⟩

theorem quotaDecision_pos (ceiling baseline c len : Int)
    (h1 : 0 < len) (h2 : 0 < ceiling - (baseline + c)) :
    0 < (quotaDecision ceiling baseline c len).1 := by
  unfold quotaDecision
  rw [if_neg (by omega)]
  exact lt_min h1 h2

theorem cancelObserved_none (iter : Nat) :
    cancelObserved none iter = false := rfl

theorem concat_fullWrites (off : Int) (chunks : List (List Nat)) :
    ∀ c : Int, concatWrites (fullWrites off chunks c) = chunks.flatten := by
  induction chunks with
  | nil => intro c; rfl
  | cons b cs ih =>
      intro c
      simp only [fullWrites, concatWrites, List.map_cons, List.flatten_cons]
      have := ih (c + (b.length : Int))
      simp only [concatWrites] at this
      rw [this]

theorem contiguous_fullWrites (off : Int) (chunks : List (List Nat)) :
    ∀ c : Int, contiguousFrom (off + c) (fullWrites off chunks c) := by
  induction chunks with
  | nil => intro c; trivial
  | cons b cs ih =>
      intro c
      refine ⟨rfl, ?_⟩
      have := ih (c + (b.length : Int))
      rwa [add_assoc]

theorem concat_truncWrites (off : Int) (chunks : List (List Nat)) :
    ∀ (c R : Int), 0 ≤ R →
      concatWrites (truncWrites off chunks c R)
        = chunks.flatten.take R.toNat := by
  induction chunks with
  | nil =>
      intro c R _
      simp [truncWrites, concatWrites]
  | cons b cs ih =>
      intro c R hR
      by_cases h0 : R ≤ 0
      · have hR0 : R = 0 := le_antisymm h0 hR
        simp [truncWrites, h0, concatWrites, hR0]
      · by_cases hlt : R < (b.length : Int)
        · have htk : R.toNat ≤ b.length := by omega
          simp only [truncWrites, if_neg h0, if_pos hlt, concatWrites,
            List.map_cons, List.map_nil, List.flatten_cons, List.flatten_nil,
            List.append_nil]
          rw [List.take_append_of_le_length htk]
        · have hle : (b.length : Int) ≤ R := by omega
          have hsplit : R.toNat = b.length + (R - (b.length : Int)).toNat := by
            omega
          simp only [truncWrites, if_neg h0, if_neg hlt, concatWrites,
            List.map_cons, List.flatten_cons]
          have := ih (c + (b.length : Int)) (R - (b.length : Int)) (by omega)
          simp only [concatWrites] at this
          rw [this, hsplit, List.take_append]

theorem contiguous_truncWrites (off : Int) (chunks : List (List Nat)) :
    ∀ (c R : Int), contiguousFrom (off + c) (truncWrites off chunks c R) := by
  induction chunks with
  | nil => intro c R; trivial
  | cons b cs ih =>
      intro c R
      by_cases h0 : R ≤ 0
      · simp only [truncWrites, if_pos h0]; trivial
      · by_cases hlt : R < (b.length : Int)
        · simp only [truncWrites, if_neg h0, if_pos hlt]
          exact ⟨rfl, trivial⟩
        · simp only [truncWrites, if_neg h0, if_neg hlt]
          refine ⟨rfl, ?_⟩
          have := ih (c + (b.length : Int)) (R - (b.length : Int))
          rwa [add_assoc]

theorem sourceBytes_chunkEvents (chunks : List (List Nat)) :
    ∀ rest : List SourceEvent,
      sourceBytes (chunkEvents chunks ++ rest)
        = chunks.flatten ++ sourceBytes rest := by
  induction chunks with
  | nil => intro rest; simp [chunkEvents]
  | cons b cs ih =>
      intro rest
      simp only [chunkEvents, List.map_cons, List.cons_append, sourceBytes,
        List.flatten_cons, List.append_assoc, List.append_eq]
      rw [← chunkEvents, ih]

theorem reportTerminal_fired (attempts : List Terminal) :
    ∀ ts : List Terminal,
      attempts.foldl reportTerminal (true, ts) = (true, ts) := by
  induction attempts with
  | nil => intro ts; rfl
  | cons t rest ih =>
      intro ts
      simp only [List.foldl_cons, reportTerminal, if_pos]
      exact ih ts

theorem deliveredTerminals_singleton (attempts : List Terminal)
    (h : attempts ≠ []) : (deliveredTerminals attempts).length = 1 := by
  match attempts, h with
  | t :: rest, _ =>
      unfold deliveredTerminals
      simp only [List.foldl_cons, reportTerminal]
      rw [if_neg (by simp)]
      simp only [List.nil_append]
      rw [reportTerminal_fired rest [t]]
      rfl

theorem runLoop_success (cfg : TransferConfig) (baseline : Int)
    (hsink : ∀ i, cfg.sink i = none) (hcancel : cfg.cancelAt = none)
    (chunks : List (List Nat)) :
    ∀ (iter nWrites : Nat) (c : Int) (th : ThrottleState),
      (∀ b ∈ chunks, b ≠ []) →
      ((chunks.flatten.length : Int) ≤ cfg.quotaCeiling - (baseline + c)) →
      ∃ tr : List Event,
        runLoop cfg baseline
            (chunkEvents chunks ++ [SourceEvent.endOfStream]) iter nWrites c th
          = ⟨Terminal.onSuccess (c + (chunks.flatten.length : Int)),
             c + (chunks.flatten.length : Int),
             fullWrites cfg.startOffset chunks c, tr⟩ := by
  have hco : ∀ i, cancelObserved cfg.cancelAt i = false := by
    intro i; rw [hcancel]; rfl
  induction chunks with
  | nil =>
      intro iter nW c th hne hq
      refine ⟨[Event.terminal (Terminal.onSuccess c)], ?_⟩
      show runLoop cfg baseline (SourceEvent.endOfStream :: []) iter nW c th = _
      unfold runLoop
      rw [hco iter]
      simp [finishWith, fullWrites]
  | cons b cs ih =>
      intro iter nW c th hne hq
      have hb : b ≠ [] := hne b (List.mem_cons_self b cs)
      have hbpos : 0 < (b.length : Int) := by
        have : 0 < b.length := List.length_pos.mpr hb
        exact_mod_cast this
      have hflen : (((b :: cs).flatten.length : Int))
          = (b.length : Int) + (cs.flatten.length : Int) := by
        simp [List.flatten_cons]
      have hrem : (b.length : Int) ≤ cfg.quotaCeiling - (baseline + c) := by
        have : (0 : Int) ≤ (cs.flatten.length : Int) := Int.ofNat_nonneg _
        rw [hflen] at hq; omega
      have hd : quotaDecision cfg.quotaCeiling baseline c (b.length : Int)
          = ((b.length : Int), false) := quotaDecision_full _ _ _ _ hbpos hrem
      obtain ⟨tr, htr⟩ := ih (iter + 1) (nW + 1) (c + (b.length : Int))
          (if shouldReport cfg.minInterval cfg.minByteDelta th (cfg.time iter)
                (c + (b.length : Int)) false
             then ⟨cfg.time iter, c + (b.length : Int)⟩ else th)
          (fun x hx => hne x (List.mem_cons_of_mem b hx))
          (by rw [hflen] at hq; omega)
      refine ⟨(if shouldReport cfg.minInterval cfg.minByteDelta th
                  (cfg.time iter) (c + (b.length : Int)) false
                then [Event.progress (c + (b.length : Int))] else []) ++ tr, ?_⟩
      show runLoop cfg baseline
          (SourceEvent.chunk b :: (chunkEvents cs ++ [SourceEvent.endOfStream]))
          iter nW c th = _
      unfold runLoop
      rw [hco iter]
      simp only [Bool.false_eq_true, if_false, hd, hsink nW]
      rw [if_neg (by omega)]
      rw [htr]
      simp only [TransferResult.mk.injEq, fullWrites, hflen]
      refine ⟨by rw [add_assoc], by rw [add_assoc], ?_, trivial⟩
      simp [Int.toNat_natCast, List.take_length]

theorem runLoop_quota (cfg : TransferConfig) (baseline : Int)
    (hsink : ∀ i, cfg.sink i = none) (hcancel : cfg.cancelAt = none)
    (chunks : List (List Nat)) :
    ∀ (tail : List SourceEvent) (iter nWrites : Nat) (c : Int)
      (th : ThrottleState),
      (∀ b ∈ chunks, b ≠ []) →
      0 ≤ cfg.quotaCeiling - (baseline + c) →
      cfg.quotaCeiling - (baseline + c) < (chunks.flatten.length : Int) →
      ∃ tr : List Event,
        runLoop cfg baseline (chunkEvents chunks ++ tail) iter nWrites c th
          = ⟨Terminal.onError ErrorKind.quotaExceeded 0,
             cfg.quotaCeiling - baseline,
             truncWrites cfg.startOffset chunks c
               (cfg.quotaCeiling - (baseline + c)), tr⟩ := by
  have hco : ∀ i, cancelObserved cfg.cancelAt i = false := by
    intro i; rw [hcancel]; rfl
  induction chunks with
  | nil =>
      intro tail iter nW c th hne h0 hlt
      exfalso
      simp only [List.flatten_nil, List.length_nil, Nat.cast_zero] at hlt
      omega
  | cons b cs ih =>
      intro tail iter nW c th hne h0 hlt
      have hb : b ≠ [] := hne b (List.mem_cons_self b cs)
      have hbpos : 0 < (b.length : Int) := by
        have : 0 < b.length := List.length_pos.mpr hb
        exact_mod_cast this
      have hflen : (((b :: cs).flatten.length : Int))
          = (b.length : Int) + (cs.flatten.length : Int) := by
        simp [List.flatten_cons]
      by_cases hR0 : cfg.quotaCeiling - (baseline + c) ≤ 0
      · have hd := quotaDecision_exhausted cfg.quotaCeiling baseline c
          (b.length : Int) hR0
        refine ⟨[Event.terminal (Terminal.onError ErrorKind.quotaExceeded 0)],
          ?_⟩
        show runLoop cfg baseline
            (SourceEvent.chunk b :: (chunkEvents cs ++ tail)) iter nW c th = _
        unfold runLoop
        rw [hco iter]
        simp only [Bool.false_eq_true, if_false, hd, if_pos rfl, if_true,
          finishWith]
        simp only [truncWrites, if_pos hR0, TransferResult.mk.injEq]
        refine ⟨trivial, by omega, trivial, trivial⟩
      · by_cases hRb : cfg.quotaCeiling - (baseline + c) < (b.length : Int)
        · have hd := quotaDecision_trunc cfg.quotaCeiling baseline c
            (b.length : Int) (by omega) hRb
          refine ⟨(if shouldReport cfg.minInterval cfg.minByteDelta th
                      (cfg.time iter)
                      (c + (cfg.quotaCeiling - (baseline + c))) false
                    then [Event.progress
                            (c + (cfg.quotaCeiling - (baseline + c)))]
                    else []) ++
                  [Event.terminal (Terminal.onError ErrorKind.quotaExceeded 0)],
            ?_⟩
          show runLoop cfg baseline
              (SourceEvent.chunk b :: (chunkEvents cs ++ tail)) iter nW c th
              = _
          unfold runLoop
          rw [hco iter]
          simp only [Bool.false_eq_true, if_false, hd, hsink nW]
          rw [if_neg (by omega)]
          simp only [if_true, truncWrites, if_neg hR0, if_pos hRb,
            TransferResult.mk.injEq]
          refine ⟨trivial, by omega, trivial, trivial⟩
        · have hd := quotaDecision_full cfg.quotaCeiling baseline c
            (b.length : Int) hbpos (by omega)
          obtain ⟨tr, htr⟩ := ih tail (iter + 1) (nW + 1)
              (c + (b.length : Int))
              (if shouldReport cfg.minInterval cfg.minByteDelta th
                    (cfg.time iter) (c + (b.length : Int)) false
                 then ⟨cfg.time iter, c + (b.length : Int)⟩ else th)
              (fun x hx => hne x (List.mem_cons_of_mem b hx))
              (by omega)
              (by rw [hflen] at hlt; omega)
          refine ⟨(if shouldReport cfg.minInterval cfg.minByteDelta th
                      (cfg.time iter) (c + (b.length : Int)) false
                    then [Event.progress (c + (b.length : Int))] else [])
                  ++ tr, ?_⟩
          show runLoop cfg baseline
              (SourceEvent.chunk b :: (chunkEvents cs ++ tail)) iter nW c th
              = _
          unfold runLoop
          rw [hco iter]
          simp only [Bool.false_eq_true, if_false, hd, hsink nW]
          rw [if_neg (by omega)]
          rw [htr]
          simp only [truncWrites, if_neg hR0, if_neg hRb,
            TransferResult.mk.injEq]
          have harg : cfg.quotaCeiling - (baseline + (c + (b.length : Int)))
              = cfg.quotaCeiling - (baseline + c) - (b.length : Int) := by
            omega
          refine ⟨trivial, trivial, ?_, trivial⟩
          rw [harg]
          simp [Int.toNat_natCast, List.take_length]

theorem sumLens_nil : sumLens [] = 0 := rfl

theorem sumLens_cons (w : WriteCall) (ws : List WriteCall) :
    sumLens (w :: ws) = (w.bytes.length : Int) + sumLens ws := rfl

theorem runLoop_cancel (cfg : TransferConfig) (baseline : Int)
    (hsink : ∀ i, cfg.sink i = none)
    (chunks : List (List Nat)) :
    ∀ (tail : List SourceEvent) (iter nWrites : Nat) (c : Int)
      (th : ThrottleState),
      cfg.cancelAt = some (iter + chunks.length) →
      (∀ b ∈ chunks, b ≠ []) →
      ((chunks.flatten.length : Int) ≤ cfg.quotaCeiling - (baseline + c)) →
      ∃ tr : List Event,
        runLoop cfg baseline (chunkEvents chunks ++ tail) iter nWrites c th
          = ⟨Terminal.onError ErrorKind.cancelled 0,
             c + (chunks.flatten.length : Int),
             fullWrites cfg.startOffset chunks c, tr⟩ := by
  induction chunks with
  | nil =>
      intro tail iter nW c th hcan hne hq
      have hcon : cancelObserved cfg.cancelAt iter = true := by
        rw [hcan]
        simp [cancelObserved]
      refine ⟨[Event.terminal (Terminal.onError ErrorKind.cancelled 0)], ?_⟩
      unfold runLoop
      rw [hcon]
      simp [finishWith, fullWrites]
  | cons b cs ih =>
      intro tail iter nW c th hcan hne hq
      have hcon : cancelObserved cfg.cancelAt iter = false := by
        rw [hcan]
        simp only [cancelObserved, decide_eq_false_iff_not]
        simp [List.length_cons]
      have hb : b ≠ [] := hne b (List.mem_cons_self b cs)
      have hbpos : 0 < (b.length : Int) := by
        have : 0 < b.length := List.length_pos.mpr hb
        exact_mod_cast this
      have hflen : (((b :: cs).flatten.length : Int))
          = (b.length : Int) + (cs.flatten.length : Int) := by
        simp [List.flatten_cons]
      have hrem : (b.length : Int) ≤ cfg.quotaCeiling - (baseline + c) := by
        have : (0 : Int) ≤ (cs.flatten.length : Int) := Int.ofNat_nonneg _
        rw [hflen] at hq; omega
      have hd : quotaDecision cfg.quotaCeiling baseline c (b.length : Int)
          = ((b.length : Int), false) := quotaDecision_full _ _ _ _ hbpos hrem
      have hcan' : cfg.cancelAt = some ((iter + 1) + cs.length) := by
        rw [hcan]
        congr 1
        simp [List.length_cons]
        omega
      obtain ⟨tr, htr⟩ := ih tail (iter + 1) (nW + 1) (c + (b.length : Int))
          (if shouldReport cfg.minInterval cfg.minByteDelta th (cfg.time iter)
                (c + (b.length : Int)) false
             then ⟨cfg.time iter, c + (b.length : Int)⟩ else th)
          hcan'
          (fun x hx => hne x (List.mem_cons_of_mem b hx))
          (by rw [hflen] at hq; omega)
      refine ⟨(if shouldReport cfg.minInterval cfg.minByteDelta th
                  (cfg.time iter) (c + (b.length : Int)) false
                then [Event.progress (c + (b.length : Int))] else []) ++ tr,
        ?_⟩
      show runLoop cfg baseline
          (SourceEvent.chunk b :: (chunkEvents cs ++ tail)) iter nW c th = _
      unfold runLoop
      rw [hcon]
      simp only [Bool.false_eq_true, if_false, hd, hsink nW]
      rw [if_neg (by omega)]
      rw [htr]
      simp only [TransferResult.mk.injEq, fullWrites, hflen]
      refine ⟨trivial, by rw [add_assoc], ?_, trivial⟩
      simp [Int.toNat_natCast, List.take_length]

theorem runLoop_one_terminal (cfg : TransferConfig) (baseline : Int)
    (src : List SourceEvent) :
    ∀ (iter nWrites : Nat) (c : Int) (th : ThrottleState),
      ((runLoop cfg baseline src iter nWrites c th).trace.countP
        Event.isTerminal) = 1 := by
  induction src with
  | nil =>
      intro iter nW c th
      unfold runLoop
      by_cases h : cancelObserved cfg.cancelAt iter = true <;>
        simp [h, finishWith, Event.isTerminal]
  | cons e rest ih =>
      intro iter nW c th
      unfold runLoop
      by_cases h : cancelObserved cfg.cancelAt iter = true
      · simp [h, finishWith, Event.isTerminal]
      · simp only [h, Bool.false_eq_true, if_false]
        cases e with
        | endOfStream => simp [finishWith, Event.isTerminal]
        | sourceErr code => simp [finishWith, Event.isTerminal]
        | chunk bytes =>
            simp only []
            by_cases h1 : (quotaDecision cfg.quotaCeiling baseline c
                (bytes.length : Int)).1 = 0
            · rw [if_pos h1]
              by_cases h2 : (quotaDecision cfg.quotaCeiling baseline c
                  (bytes.length : Int)).2 = true
              · rw [if_pos h2]
                simp [finishWith, Event.isTerminal]
              · rw [if_neg h2]
                exact ih (iter + 1) nW c th
            · rw [if_neg h1]
              cases hs : cfg.sink nW with
              | some code => simp [finishWith, Event.isTerminal]
              | none =>
                  by_cases h2 : (quotaDecision cfg.quotaCeiling baseline c
                      (bytes.length : Int)).2 = true
                  · rw [if_pos h2]
                    by_cases hrep : shouldReport cfg.minInterval
                        cfg.minByteDelta th (cfg.time iter)
                        (c + (quotaDecision cfg.quotaCeiling baseline c
                          (bytes.length : Int)).1) false = true <;>
                      simp [hrep, Event.isTerminal]
                  · rw [if_neg h2]
                    by_cases hrep : shouldReport cfg.minInterval
                        cfg.minByteDelta th (cfg.time iter)
                        (c + (quotaDecision cfg.quotaCeiling baseline c
                          (bytes.length : Int)).1) false = true <;>
                      simp [hrep, Event.isTerminal, List.countP_append, ih]

theorem runLoop_total (cfg : TransferConfig) (baseline : Int)
    (src : List SourceEvent) :
    ∀ (iter nWrites : Nat) (c : Int) (th : ThrottleState),
      (runLoop cfg baseline src iter nWrites c th).totalBytesWritten
        = c + sumLens (runLoop cfg baseline src iter nWrites c th).writes := by
  induction src with
  | nil =>
      intro iter nW c th
      unfold runLoop
      by_cases h : cancelObserved cfg.cancelAt iter = true <;>
        simp [h, finishWith, sumLens]
  | cons e rest ih =>
      intro iter nW c th
      unfold runLoop
      by_cases h : cancelObserved cfg.cancelAt iter = true
      · simp [h, finishWith, sumLens]
      · simp only [h, Bool.false_eq_true, if_false]
        cases e with
        | endOfStream => simp [finishWith, sumLens]
        | sourceErr code => simp [finishWith, sumLens]
        | chunk bytes =>
            simp only []
            by_cases h1 : (quotaDecision cfg.quotaCeiling baseline c
                (bytes.length : Int)).1 = 0
            · rw [if_pos h1]
              by_cases h2 : (quotaDecision cfg.quotaCeiling baseline c
                  (bytes.length : Int)).2 = true
              · rw [if_pos h2]
                simp [finishWith, sumLens]
              · rw [if_neg h2]
                exact ih (iter + 1) nW c th
            · rw [if_neg h1]
              have hqf := quotaDecision_fst_nonneg cfg.quotaCeiling baseline c
                (bytes.length : Int) (Int.ofNat_nonneg _)
              rcases hqf with ⟨hge, hle, _⟩ | hzero
              swap
              · exact absurd hzero h1
              have hlen : ((bytes.take (quotaDecision cfg.quotaCeiling baseline
                  c (bytes.length : Int)).1.toNat).length : Int)
                  = (quotaDecision cfg.quotaCeiling baseline c
                      (bytes.length : Int)).1 := by
                rw [List.length_take]
                have : (quotaDecision cfg.quotaCeiling baseline c
                    (bytes.length : Int)).1.toNat ≤ bytes.length := by omega
                rw [Nat.min_eq_left this]
                omega
              cases hs : cfg.sink nW with
              | some code => simp [finishWith, sumLens]
              | none =>
                  by_cases h2 : (quotaDecision cfg.quotaCeiling baseline c
                      (bytes.length : Int)).2 = true
                  · rw [if_pos h2]
                    simp only [sumLens_cons, sumLens_nil]
                    rw [hlen]
                    ring
                  · rw [if_neg h2]
                    simp only [sumLens_cons]
                    rw [ih, hlen]
                    ring

theorem runLoop_prefix_bound (cfg : TransferConfig) (baseline : Int)
    (src : List SourceEvent) :
    ∀ (iter nWrites : Nat) (c : Int) (th : ThrottleState)
      (p s : List WriteCall),
      (runLoop cfg baseline src iter nWrites c th).writes = p ++ s →
      baseline + c + sumLens p ≤ cfg.quotaCeiling ∨ p = [] := by
  induction src with
  | nil =>
      intro iter nW c th p s hps
      unfold runLoop at hps
      by_cases h : cancelObserved cfg.cancelAt iter = true <;>
        [skip; skip] <;>
        · simp [h, finishWith] at hps
          exact Or.inr hps.1
  | cons e rest ih =>
      intro iter nW c th p s hps
      unfold runLoop at hps
      by_cases h : cancelObserved cfg.cancelAt iter = true
      · simp [h, finishWith] at hps
        exact Or.inr hps.1
      · simp only [h, Bool.false_eq_true, if_false] at hps
        cases e with
        | endOfStream =>
            simp [finishWith] at hps
            exact Or.inr hps.1
        | sourceErr code =>
            simp [finishWith] at hps
            exact Or.inr hps.1
        | chunk bytes =>
            dsimp only at hps
            by_cases h1 : (quotaDecision cfg.quotaCeiling baseline c
                (bytes.length : Int)).1 = 0
            · rw [if_pos h1] at hps
              by_cases h2 : (quotaDecision cfg.quotaCeiling baseline c
                  (bytes.length : Int)).2 = true
              · rw [if_pos h2] at hps
                simp [finishWith] at hps
                exact Or.inr hps.1
              · rw [if_neg h2] at hps
                exact ih (iter + 1) nW c th p s hps
            · rw [if_neg h1] at hps
              have hqf := quotaDecision_fst_nonneg cfg.quotaCeiling baseline c
                (bytes.length : Int) (Int.ofNat_nonneg _)
              rcases hqf with ⟨hge, hle, hrem⟩ | hzero
              swap
              · exact absurd hzero h1
              have hwlen : ((bytes.take (quotaDecision cfg.quotaCeiling
                  baseline c (bytes.length : Int)).1.toNat).length : Int)
                  = (quotaDecision cfg.quotaCeiling baseline c
                      (bytes.length : Int)).1 := by
                rw [List.length_take]
                have : (quotaDecision cfg.quotaCeiling baseline c
                    (bytes.length : Int)).1.toNat ≤ bytes.length := by omega
                rw [Nat.min_eq_left this]
                omega
              cases hs : cfg.sink nW with
              | some code =>
                  rw [hs] at hps
                  simp [finishWith] at hps
                  exact Or.inr hps.1
              | none =>
                  rw [hs] at hps
                  by_cases h2 : (quotaDecision cfg.quotaCeiling baseline c
                      (bytes.length : Int)).2 = true
                  · rw [if_pos h2] at hps
                    dsimp only at hps
                    cases p with
                    | nil => exact Or.inr rfl
                    | cons w' p' =>
                        rw [List.cons_append] at hps
                        injection hps with hw hrest
                        have hp' : p' = [] := by
                          cases p' with
                          | nil => rfl
                          | cons x xs => simp at hrest
                        subst hp'
                        left
                        rw [← hw]
                        simp only [sumLens_cons, sumLens_nil]
                        rw [hwlen]
                        omega
                  · rw [if_neg h2] at hps
                    dsimp only at hps
                    cases p with
                    | nil => exact Or.inr rfl
                    | cons w' p' =>
                        rw [List.cons_append] at hps
                        injection hps with hw hrest
                        have := ih (iter + 1) (nW + 1)
                          (c + (quotaDecision cfg.quotaCeiling baseline c
                            (bytes.length : Int)).1)
                          (if shouldReport cfg.minInterval cfg.minByteDelta th
                                (cfg.time iter)
                                (c + (quotaDecision cfg.quotaCeiling baseline c
                                  (bytes.length : Int)).1) false
                             then ⟨cfg.time iter,
                                   c + (quotaDecision cfg.quotaCeiling baseline
                                     c (bytes.length : Int)).1⟩
                             else th)
                          p' s hrest
                        rcases this with hbound | hp'
                        · left
                          rw [← hw]
                          simp only [sumLens_cons]
                          rw [hwlen]
                          omega
                        · subst hp'
                          left
                          rw [← hw]
                          simp only [sumLens_cons, sumLens_nil]
                          rw [hwlen]
                          omega

theorem applyOp_file (st : DelegateModel) (op : DelegateOp) :
    (applyOp st op).file_ = st.file_ := by
  cases op <;> rfl

theorem foldl_applyOp_file (ops : List DelegateOp) :
    ∀ st : DelegateModel, (ops.foldl applyOp st).file_ = st.file_ := by
  induction ops with
  | nil => intro st; rfl
  | cons op rest ih =>
      intro st
      rw [List.foldl_cons, ih, applyOp_file]

theorem runTransfer_second_write_fails (cfg : TransferConfig)
    (b1 b2 : List Nat) (rest : List SourceEvent) (code baseline : Int)
    (hoff : 0 ≤ cfg.startOffset) (hprobe : cfg.probe = Except.ok baseline)
    (hcancel : cfg.cancelAt = none)
    (hsrc : cfg.source = SourceEvent.chunk b1 :: SourceEvent.chunk b2 :: rest)
    (hs0 : cfg.sink 0 = none) (hs1 : cfg.sink 1 = some code)
    (hb1 : b1 ≠ []) (hb2 : b2 ≠ [])
    (hq : (b1.length : Int) < cfg.quotaCeiling - baseline) :
    (runTransfer cfg).terminal = Terminal.onError ErrorKind.writeError code ∧
    (runTransfer cfg).totalBytesWritten = (b1.length : Int) := by
  have hb1pos : 0 < (b1.length : Int) := by
    have : 0 < b1.length := List.length_pos.mpr hb1
    exact_mod_cast this
  have hb2pos : 0 < (b2.length : Int) := by
    have : 0 < b2.length := List.length_pos.mpr hb2
    exact_mod_cast this
  have hco : ∀ i, cancelObserved cfg.cancelAt i = false := by
    intro i; rw [hcancel]; rfl
  have hd1 : quotaDecision cfg.quotaCeiling baseline 0 (b1.length : Int)
      = ((b1.length : Int), false) :=
    quotaDecision_full _ _ _ _ hb1pos (by omega)
  have hd2pos : 0 < (quotaDecision cfg.quotaCeiling baseline
      (0 + (b1.length : Int)) (b2.length : Int)).1 :=
    quotaDecision_pos _ _ _ _ hb2pos (by omega)
  refine ⟨?_, ?_⟩ <;>
  · unfold runTransfer
    rw [if_neg (by omega), hprobe, hsrc]
    unfold runLoop
    rw [hco]
    simp only [Bool.false_eq_true, if_false, hd1, hs0]
    rw [if_neg (by omega)]
    unfold runLoop
    rw [hco]
    simp only [Bool.false_eq_true, if_false]
    rw [if_neg (by omega), hs1]
    simp [finishWith]

/-- C9: per-read-cycle byte counts (`bytes_read_`, `bytes_written_`,
`bytes_written_backlog_`, declared `int`) are bounded by `2^31 - 1`, while
the cumulative and quota members (`offset_`, `total_bytes_written_`,
`allowed_bytes_growth_`, `allowed_bytes_to_write_`, declared `int64`) can
hold values beyond that bound. -/
theorem delegate_int_widths :
    (∀ st : FileWriterDelegateFields,
       st.bytes_read_ ≤ 2 ^ 31 - 1 ∧ st.bytes_written_ ≤ 2 ^ 31 - 1 ∧
       st.bytes_written_backlog_ ≤ 2 ^ 31 - 1) ∧
    (∃ st : FileWriterDelegateFields,
       2 ^ 31 - 1 < st.total_bytes_written_ ∧
       2 ^ 31 - 1 < st.allowed_bytes_growth_ ∧
       2 ^ 31 - 1 < st.allowed_bytes_to_write_ ∧
       2 ^ 31 - 1 < st.offset_) := by
  constructor
  · intro st
    exact ⟨st.h_read.2, st.h_written.2, st.h_backlog.2⟩
  · refine ⟨⟨2 ^ 31, 0, 0, 0, 2 ^ 31, 2 ^ 31, 2 ^ 31,
      by norm_num [fitsInt64], by norm_num [fitsInt32],
      by norm_num [fitsInt32], by norm_num [fitsInt32],
      by norm_num [fitsInt64], by norm_num [fitsInt64],
      by norm_num [fitsInt64]⟩,
      by norm_num, by norm_num, by norm_num, by norm_num⟩

/-- C10: after `Start` stores the platform file handle, the `file()`
accessor returns exactly that handle, and no subsequent operation of the
transfer changes it. -/
theorem start_file_stable (st : DelegateModel) (f : Int)
    (ops : List DelegateOp) :
    file (ops.foldl applyOp (startDelegate st f)) = f := by
  unfold file
  rw [foldl_applyOp_file]
  rfl

/-- C4: exactly one terminal callback is delivered per transfer — the
notification trace of every run contains exactly one terminal event — and
any nonempty set of racing delivery attempts funnelled through the one-shot
Completion Reporter delivers exactly one callback. -/
theorem transfer_single_terminal :
    (∀ cfg : TransferConfig,
       (runTransfer cfg).trace.countP Event.isTerminal = 1) ∧
    (∀ attempts : List Terminal, attempts ≠ [] →
       (deliveredTerminals attempts).length = 1) := by
  constructor
  · intro cfg
    unfold runTransfer
    by_cases hoff : cfg.startOffset < 0
    · simp [hoff, finishWith, Event.isTerminal]
    · rw [if_neg hoff]
      cases hp : cfg.probe with
      | error code => simp [finishWith, Event.isTerminal]
      | ok baseline => exact runLoop_one_terminal cfg baseline cfg.source 0 0 0 _
  · exact deliveredTerminals_singleton

theorem transfer_single_terminal_witness :
    ((runTransfer ⟨5, 0, Except.ok 0, [SourceEvent.endOfStream],
        fun _ => none, none, 500, 1024, fun _ => 0⟩).trace.countP
          Event.isTerminal = 1) ∧
    (deliveredTerminals [Terminal.onSuccess 3,
        Terminal.onError ErrorKind.cancelled 0]).length = 1 :=
  ⟨transfer_single_terminal.1 _, transfer_single_terminal.2 _ (by decide)⟩

/-- C3: in every reachable state — after any prefix of the write log — the
cumulative bytes written stay at or below the quota ceiling: the
orchestrator truncates rather than violate the invariant. -/
theorem transfer_quota_invariant (cfg : TransferConfig)
    (hC : 0 ≤ cfg.quotaCeiling)
    (hbase : ∀ b, cfg.probe = Except.ok b → 0 ≤ b) :
    ∀ p s : List WriteCall, (runTransfer cfg).writes = p ++ s →
      sumLens p ≤ cfg.quotaCeiling := by
  intro p s hps
  unfold runTransfer at hps
  by_cases hoff : cfg.startOffset < 0
  · rw [if_pos hoff] at hps
    simp [finishWith] at hps
    rw [hps.1]
    simpa [sumLens_nil] using hC
  · rw [if_neg hoff] at hps
    cases hp : cfg.probe with
    | error code =>
        rw [hp] at hps
        simp [finishWith] at hps
        rw [hps.1]
        simpa [sumLens_nil] using hC
    | ok baseline =>
        rw [hp] at hps
        dsimp only at hps
        have hb0 : 0 ≤ baseline := hbase baseline hp
        rcases runLoop_prefix_bound cfg baseline cfg.source 0 0 0
            ⟨cfg.time 0, 0⟩ p s hps with hbound | hpnil
        · omega
        · rw [hpnil]
          simpa [sumLens_nil] using hC

theorem transfer_quota_invariant_witness :
    sumLens [({ offset := 0, bytes := [1, 2] } : WriteCall)] ≤ (5 : Int) :=
  transfer_quota_invariant
    ⟨5, 0, Except.ok 0, chunkEvents [[1, 2], [3, 4]] ++
        [SourceEvent.endOfStream], fun _ => none, none, 500, 1024, fun _ => 0⟩
    (by decide) (by intro b h; simp at h; omega)
    [⟨0, [1, 2]⟩] [⟨2, [3, 4]⟩] (by decide)

/-- C1: with quota ceiling `C ≥ 0` and a source producing `N` bytes in
total: if `N ≤ C` the transfer succeeds with `totalBytesWritten = N`; if
`N > C` it fails with `QuotaExceeded` and `totalBytesWritten = C`, the
allowed prefix having been written. -/
theorem transfer_quota_outcome (cfg : TransferConfig)
    (chunks : List (List Nat))
    (hC : 0 ≤ cfg.quotaCeiling) (hoff : 0 ≤ cfg.startOffset)
    (hprobe : cfg.probe = Except.ok 0)
    (hsrc : cfg.source = chunkEvents chunks ++ [SourceEvent.endOfStream])
    (hne : ∀ b ∈ chunks, b ≠ [])
    (hsink : ∀ i, cfg.sink i = none) (hcancel : cfg.cancelAt = none) :
    (((chunks.flatten.length : Int) ≤ cfg.quotaCeiling) →
       (runTransfer cfg).terminal
           = Terminal.onSuccess (chunks.flatten.length : Int) ∧
       (runTransfer cfg).totalBytesWritten = (chunks.flatten.length : Int)) ∧
    ((cfg.quotaCeiling < (chunks.flatten.length : Int)) →
       (runTransfer cfg).terminal
           = Terminal.onError ErrorKind.quotaExceeded 0 ∧
       (runTransfer cfg).totalBytesWritten = cfg.quotaCeiling) := by
  have hrt : runTransfer cfg
      = runLoop cfg 0 cfg.source 0 0 0 ⟨cfg.time 0, 0⟩ := by
    unfold runTransfer
    rw [if_neg (by omega), hprobe]
  constructor
  · intro hN
    obtain ⟨tr, htr⟩ := runLoop_success cfg 0 hsink hcancel chunks 0 0 0
        ⟨cfg.time 0, 0⟩ hne (by omega)
    rw [hrt, hsrc, htr]
    constructor <;> simp
  · intro hgt
    obtain ⟨tr, htr⟩ := runLoop_quota cfg 0 hsink hcancel chunks
        [SourceEvent.endOfStream] 0 0 0 ⟨cfg.time 0, 0⟩ hne (by omega)
        (by omega)
    rw [hrt, hsrc, htr]
    constructor <;> simp

theorem transfer_quota_outcome_witness :
    (runTransfer ⟨500, 0, Except.ok 0,
        chunkEvents [[1, 2, 3]] ++ [SourceEvent.endOfStream],
        fun _ => none, none, 500, 1024, fun _ => 0⟩).terminal
      = Terminal.onSuccess 3 := by
  have h := (transfer_quota_outcome
      ⟨500, 0, Except.ok 0,
        chunkEvents [[1, 2, 3]] ++ [SourceEvent.endOfStream],
        fun _ => none, none, 500, 1024, fun _ => 0⟩
      [[1, 2, 3]] (by decide) (by decide)
      rfl rfl (by decide) (fun i => rfl) rfl).1 (by decide)
  simpa using h.1

/-- C5: writes go to the sink in source order at contiguous, monotonically
increasing offsets starting at `startOffset`, and their concatenation is
the source byte stream truncated to the quota. -/
theorem transfer_write_stream (cfg : TransferConfig)
    (chunks : List (List Nat))
    (hC : 0 ≤ cfg.quotaCeiling) (hoff : 0 ≤ cfg.startOffset)
    (hprobe : cfg.probe = Except.ok 0)
    (hsrc : cfg.source = chunkEvents chunks ++ [SourceEvent.endOfStream])
    (hne : ∀ b ∈ chunks, b ≠ [])
    (hsink : ∀ i, cfg.sink i = none) (hcancel : cfg.cancelAt = none) :
    contiguousFrom cfg.startOffset (runTransfer cfg).writes ∧
    concatWrites (runTransfer cfg).writes
      = chunks.flatten.take
          (min chunks.flatten.length cfg.quotaCeiling.toNat) := by
  have hrt : runTransfer cfg
      = runLoop cfg 0 cfg.source 0 0 0 ⟨cfg.time 0, 0⟩ := by
    unfold runTransfer
    rw [if_neg (by omega), hprobe]
  by_cases hN : (chunks.flatten.length : Int) ≤ cfg.quotaCeiling
  · obtain ⟨tr, htr⟩ := runLoop_success cfg 0 hsink hcancel chunks 0 0 0
        ⟨cfg.time 0, 0⟩ hne (by omega)
    rw [hrt, hsrc, htr]
    dsimp only
    constructor
    · have := contiguous_fullWrites cfg.startOffset chunks 0
      simpa using this
    · rw [concat_fullWrites]
      rw [Nat.min_eq_left (by omega), List.take_length]
  · obtain ⟨tr, htr⟩ := runLoop_quota cfg 0 hsink hcancel chunks
        [SourceEvent.endOfStream] 0 0 0 ⟨cfg.time 0, 0⟩ hne (by omega)
        (by omega)
    rw [hrt, hsrc, htr]
    dsimp only
    constructor
    · have := contiguous_truncWrites cfg.startOffset chunks 0
        (cfg.quotaCeiling - (0 + 0))
      simpa using this
    · rw [concat_truncWrites _ _ _ _ (by omega)]
      rw [Nat.min_eq_right (by omega)]
      congr 1
      omega

theorem transfer_write_stream_witness :
    contiguousFrom (0 : Int)
        (runTransfer ⟨3, 0, Except.ok 0,
          chunkEvents [[5, 6], [7, 8]] ++ [SourceEvent.endOfStream],
          fun _ => none, none, 500, 1024, fun _ => 0⟩).writes ∧
    concatWrites (runTransfer ⟨3, 0, Except.ok 0,
          chunkEvents [[5, 6], [7, 8]] ++ [SourceEvent.endOfStream],
          fun _ => none, none, 500, 1024, fun _ => 0⟩).writes
      = ([[5, 6], [7, 8]] : List (List Nat)).flatten.take
          (min ([[5, 6], [7, 8]] : List (List Nat)).flatten.length
            (3 : Int).toNat) :=
  transfer_write_stream
    ⟨3, 0, Except.ok 0,
      chunkEvents [[5, 6], [7, 8]] ++ [SourceEvent.endOfStream],
      fun _ => none, none, 500, 1024, fun _ => 0⟩
    [[5, 6], [7, 8]] (by decide) (by decide) rfl rfl
    (by decide) (fun i => rfl) rfl

/-- C7: `totalBytesWritten` is available on every path — it always equals
the bytes of the successful writes — and when the sink's second `writeAt`
fails the transfer ends with `WriteError` and `totalBytesWritten` reflects
only the first successful write. -/
theorem transfer_total_on_error :
    (∀ cfg : TransferConfig,
       (runTransfer cfg).totalBytesWritten
         = sumLens (runTransfer cfg).writes) ∧
    (∀ (cfg : TransferConfig) (b1 b2 : List Nat) (rest : List SourceEvent)
       (code baseline : Int),
       0 ≤ cfg.startOffset → cfg.probe = Except.ok baseline →
       cfg.cancelAt = none →
       cfg.source = SourceEvent.chunk b1 :: SourceEvent.chunk b2 :: rest →
       cfg.sink 0 = none → cfg.sink 1 = some code →
       b1 ≠ [] → b2 ≠ [] →
       (b1.length : Int) < cfg.quotaCeiling - baseline →
       (runTransfer cfg).terminal
           = Terminal.onError ErrorKind.writeError code ∧
       (runTransfer cfg).totalBytesWritten = (b1.length : Int)) := by
  constructor
  · intro cfg
    unfold runTransfer
    by_cases hoff : cfg.startOffset < 0
    · simp [hoff, finishWith, sumLens_nil]
    · rw [if_neg hoff]
      cases hp : cfg.probe with
      | error code => simp [finishWith, sumLens_nil]
      | ok baseline =>
          have := runLoop_total cfg baseline cfg.source 0 0 0 ⟨cfg.time 0, 0⟩
          simpa using this
  · intro cfg b1 b2 rest code baseline hoff hprobe hcancel hsrc hs0 hs1 hb1
      hb2 hq
    exact runTransfer_second_write_fails cfg b1 b2 rest code baseline hoff
      hprobe hcancel hsrc hs0 hs1 hb1 hb2 hq

theorem transfer_total_on_error_witness :
    (runTransfer ⟨10, 0, Except.ok 0,
        SourceEvent.chunk [1] :: SourceEvent.chunk [2] ::
          [SourceEvent.endOfStream],
        fun i => if i = 1 then some 7 else none, none, 500, 1024,
        fun _ => 0⟩).terminal
      = Terminal.onError ErrorKind.writeError 7 ∧
    (runTransfer ⟨10, 0, Except.ok 0,
        SourceEvent.chunk [1] :: SourceEvent.chunk [2] ::
          [SourceEvent.endOfStream],
        fun i => if i = 1 then some 7 else none, none, 500, 1024,
        fun _ => 0⟩).totalBytesWritten = 1 :=
  transfer_total_on_error.2
    ⟨10, 0, Except.ok 0,
      SourceEvent.chunk [1] :: SourceEvent.chunk [2] ::
        [SourceEvent.endOfStream],
      fun i => if i = 1 then some 7 else none, none, 500, 1024, fun _ => 0⟩
    [1] [2] [SourceEvent.endOfStream] 7 0
    (by decide) rfl rfl rfl rfl rfl (by decide) (by decide) (by decide)

/-- C8: a cancellation observed mid-transfer terminates the transfer with
`Cancelled`; the destination holds exactly the bytes durably written before
the cancellation — a prefix of the source's byte stream — with no rollback
of already-written bytes. -/
theorem transfer_cancelled_prefix (cfg : TransferConfig)
    (chunks : List (List Nat)) (rest : List SourceEvent) (baseline : Int)
    (hoff : 0 ≤ cfg.startOffset) (hprobe : cfg.probe = Except.ok baseline)
    (hsrc : cfg.source = chunkEvents chunks ++ rest)
    (hcancel : cfg.cancelAt = some chunks.length)
    (hne : ∀ b ∈ chunks, b ≠ [])
    (hsink : ∀ i, cfg.sink i = none)
    (hq : (chunks.flatten.length : Int) ≤ cfg.quotaCeiling - baseline) :
    (runTransfer cfg).terminal = Terminal.onError ErrorKind.cancelled 0 ∧
    (runTransfer cfg).totalBytesWritten = (chunks.flatten.length : Int) ∧
    concatWrites (runTransfer cfg).writes = chunks.flatten ∧
    List.IsPrefix (concatWrites (runTransfer cfg).writes)
      (sourceBytes cfg.source) := by
  have hrt : runTransfer cfg
      = runLoop cfg baseline cfg.source 0 0 0 ⟨cfg.time 0, 0⟩ := by
    unfold runTransfer
    rw [if_neg (by omega), hprobe]
  obtain ⟨tr, htr⟩ := runLoop_cancel cfg baseline hsink chunks rest 0 0 0
      ⟨cfg.time 0, 0⟩ (by rw [hcancel]; simp) hne (by omega)
  rw [hrt, hsrc, htr]
  refine ⟨rfl, by simp, ?_, ?_⟩
  · dsimp only
    rw [concat_fullWrites]
  · dsimp only
    rw [concat_fullWrites, sourceBytes_chunkEvents]
    exact List.prefix_append _ _

theorem transfer_cancelled_prefix_witness :
    (runTransfer ⟨100, 0, Except.ok 0,
        chunkEvents [[1], [2]] ++ [SourceEvent.endOfStream],
        fun _ => none, some 2, 500, 1024, fun _ => 0⟩).terminal
      = Terminal.onError ErrorKind.cancelled 0 ∧
    (runTransfer ⟨100, 0, Except.ok 0,
        chunkEvents [[1], [2]] ++ [SourceEvent.endOfStream],
        fun _ => none, some 2, 500, 1024, fun _ => 0⟩).totalBytesWritten
      = (([[1], [2]] : List (List Nat)).flatten.length : Int) ∧
    concatWrites (runTransfer ⟨100, 0, Except.ok 0,
        chunkEvents [[1], [2]] ++ [SourceEvent.endOfStream],
        fun _ => none, some 2, 500, 1024, fun _ => 0⟩).writes
      = ([[1], [2]] : List (List Nat)).flatten ∧
    List.IsPrefix (concatWrites (runTransfer ⟨100, 0, Except.ok 0,
        chunkEvents [[1], [2]] ++ [SourceEvent.endOfStream],
        fun _ => none, some 2, 500, 1024, fun _ => 0⟩).writes)
      (sourceBytes (⟨100, 0, Except.ok 0,
        chunkEvents [[1], [2]] ++ [SourceEvent.endOfStream],
        fun _ => none, some 2, 500, 1024,
        fun _ => 0⟩ : TransferConfig).source) :=
  transfer_cancelled_prefix
    ⟨100, 0, Except.ok 0,
      chunkEvents [[1], [2]] ++ [SourceEvent.endOfStream],
      fun _ => none, some 2, 500, 1024, fun _ => 0⟩
    [[1], [2]] [SourceEvent.endOfStream] 0
    (by decide) rfl rfl rfl (by decide) (fun i => rfl) (by decide)

end FileWriter
